import Mathlib

/-!
Verification development for the panqake stacked-branch manager.

The definitions below are a shallow embedding of the Python sources:
- `src/panqake/utils/config.py` (persistent stack store),
- `src/panqake/commands/update.py` / `sync.py` (conflict-aware update propagation),
- `src/panqake/commands/pr.py` (stacked-PR orchestration),
- `src/panqake/commands/delete.py` (branch deletion with relinking).

Python dictionaries are embedded as insertion-ordered association lists
(`List (String × β)`); dictionary reads, writes and deletions are the
`dictGet` / `dictSet` / `dictDelete` helpers which preserve insertion
order exactly as CPython dictionaries do.  File-system effects are
embedded as explicit state (`StackFile`), subprocess/prompt collaborators
as function-valued environments, and printed warnings / external calls as
explicit event traces.  Python loops that are not structurally
terminating are embedded with an explicit fuel parameter; `none` denotes
divergence of the corresponding loop.
-/

namespace Panqake

/-- A repository's stack: insertion-ordered map from branch name to its
recorded parent (the `{"parent": ...}` record of `config.py`). -/
abbrev RepoStack := List (String × String)

/-- The whole persisted mapping: repository identity to that repository's
stack, mirroring the top level of `~/.panqake/stacks.json`. -/
abbrev StacksMap := List (String × RepoStack)

/-- Lookup in an insertion-ordered association list (first matching key),
the behaviour of a Python dictionary read. -/
def dictGet {β : Type} : List (String × β) → String → Option β
  | [], _ => none
  | (k', v) :: rest, k => if k' = k then some v else dictGet rest k

/-- Dictionary write: overwrite the first entry with the given key in
place, or append a fresh entry at the end, as CPython assignment does. -/
def dictSet {β : Type} : List (String × β) → String → β → List (String × β)
  | [], k, v => [(k, v)]
  | (k', v') :: rest, k, v =>
      if k' = k then (k, v) :: rest else (k', v') :: dictSet rest k v

/-- Dictionary deletion of the first entry with the given key. -/
def dictDelete {β : Type} : List (String × β) → String → List (String × β)
  | [], _ => []
  | (k', v') :: rest, k => if k' = k then rest else (k', v') :: dictDelete rest k

/-- State of the persisted stack file `~/.panqake/stacks.json`. -/
inductive StackFile : Type
  | missing : StackFile
  | corrupt : StackFile
  | parsed : StacksMap → StackFile
  deriving DecidableEq, Repr

/-- Well-formedness of a parsed stack file: JSON objects cannot carry
duplicate keys, so both dictionary levels have pairwise distinct keys. -/
def StackFile.WF : StackFile → Prop
  | .parsed sm =>
      (sm.map Prod.fst).Nodup ∧ ∀ e ∈ sm, (e.2.map Prod.fst).Nodup
  | _ => True

/-- Embeds `get_parent_branch` of `utils/config.py`.  The first component
is the returned string, the second the warnings printed; the repository
identity (`get_repo_id()`, an external collaborator) is passed in, with
`""` standing for an unresolvable identity (Python falsy). -/
def get_parent_branch (file : StackFile) (repoId branch : String) :
    String × List String :=
  match file with
  | .missing => ("", [])
  | .corrupt => ("", ["Error reading stack file"])
  | .parsed sm =>
      if repoId = "" then ("", [])
      else
        match dictGet sm repoId with
        | none => ("", [])
        | some repo =>
            match dictGet repo branch with
            | none => ("", [])
            | some parent => (parent, [])

/-- Embeds `get_child_branches` of `utils/config.py`: the branches whose
recorded parent equals the given branch, in insertion order, paired with
the warnings printed. -/
def get_child_branches (file : StackFile) (repoId branch : String) :
    List String × List String :=
  match file with
  | .missing => ([], [])
  | .corrupt => ([], ["Error reading stack file"])
  | .parsed sm =>
      if repoId = "" then ([], [])
      else
        match dictGet sm repoId with
        | none => ([], [])
        | some repo => ((repo.filter (fun e => e.2 = branch)).map Prod.fst, [])

/-- Embeds `add_to_stack` of `utils/config.py`.  Result `none` models the
uncaught exception raised when the file is absent (the code opens it for
reading without an existence check); a corrupt file is replaced by `{}`
before the write, exactly as the `json.JSONDecodeError` handler does.
There is no cycle check anywhere in this function. -/
def add_to_stack (file : StackFile) (repoId branch parent : String) :
    Option StackFile :=
  if repoId = "" then some file
  else
    match file with
    | .missing => none
    | .corrupt => some (.parsed [(repoId, [(branch, parent)])])
    | .parsed sm =>
        let repo := (dictGet sm repoId).getD []
        some (.parsed (dictSet sm repoId (dictSet repo branch parent)))

/-- Embeds `remove_from_stack` of `utils/config.py`: children of the
removed branch are re-linked to its parent before the record is deleted;
every early-return path leaves the file untouched and yields `false`. -/
def remove_from_stack (file : StackFile) (repoId branch : String) :
    StackFile × Bool :=
  if repoId = "" then (file, false)
  else
    match file with
    | .missing => (file, false)
    | .corrupt => (file, false)
    | .parsed sm =>
        match dictGet sm repoId with
        | none => (file, false)
        | some repo =>
            match dictGet repo branch with
            | none => (file, false)
            | some parent =>
                let relinked :=
                  repo.map (fun e => if e.2 = branch then (e.1, parent) else e)
                let repo' := dictDelete relinked branch
                (.parsed (dictSet sm repoId repo'), true)

/-- The parent recorded for `branch` in the current repository's mapping,
if any: the observable read used to state properties of the store. -/
def recordedParent (file : StackFile) (repoId branch : String) : Option String :=
  match file with
  | .parsed sm =>
      if repoId = "" then none
      else (dictGet sm repoId).bind (fun repo => dictGet repo branch)
  | _ => none

/-- The repository-level entry stored under identity `r`, if the file is
parseable. -/
def repoOf (file : StackFile) (r : String) : Option RepoStack :=
  match file with
  | .parsed sm => dictGet sm r
  | _ => none

/-! ## Graph queries over one repository's stack -/

/-- Modelled from the spec: `childrenOf(branch) -> set<name>` — "branches
whose `parent == branch`".  The `Stacks.get_children` implementation
(`utils/stack.py`) is not among the provided sources; this definition
follows the spec's words and coincides with `get_child_branches` of
`utils/config.py` on the current repository's mapping. -/
def get_children (repo : RepoStack) (branch : String) : List String :=
  (repo.filter (fun e => e.2 = branch)).map Prod.fst

/-- The recorded parent of a branch, with `""` for an untracked branch:
the value `get_parent_branch` yields once the file and repository
identity are fixed. -/
def parentOf (repo : RepoStack) (branch : String) : String :=
  (dictGet repo branch).getD ""

/-- `Desc repo p x` says that `x` is a proper descendant of `p` in the
recorded parent graph: there is a non-empty chain of parent links from
`x` up to `p`. -/
inductive Desc (repo : RepoStack) : String → String → Prop
  | single {p c : String} : dictGet repo c = some p → Desc repo p c
  | head {p c x : String} : dictGet repo c = some p → Desc repo c x → Desc repo p x

/-- The no-cycle invariant of the data model: no branch is its own
proper descendant. -/
def NoCycle (repo : RepoStack) : Prop := ∀ b, ¬ Desc repo b b

/-! ## Update propagation (commands/update.py and commands/sync.py)

`update_branch_and_children` (update.py, lines 63-123) and
`update_branches_with_conflict_handling` (sync.py, lines 89-149) contain
the same two-phase algorithm, line for line: a breadth-first worklist
that collects `(branch, parent)` pairs over the whole subtree, then a
pass applying the per-branch operation with cascading conflict skips.
Both are embedded once below.  The Python `while branches_to_process:`
loop has no structural termination argument, so it takes a fuel
parameter; `none` models divergence of the loop. -/

/-- Phase 1 of `update_branch_and_children`: the worklist traversal that
pops `(current, parent)` from the front, records the pair when `parent`
is not `None`, and enqueues `(child, current)` for every child. -/
def buildUpdateList (repo : RepoStack) :
    Nat → List (String × Option String) → List (String × String) →
      Option (List (String × String))
  | _, [], acc => some acc
  | 0, _ :: _, _ => none
  | fuel + 1, (current, parent) :: rest, acc =>
      let acc' := match parent with
        | none => acc
        | some p => acc ++ [(current, p)]
      buildUpdateList repo fuel
        (rest ++ (get_children repo current).map (fun c => (c, some current)))
        acc'

/-- The traversal as run by both commands: seeded with
`[(branch, None)]` so the starting branch itself is skipped.  The fuel
`repo.length + 1` is proved sufficient for acyclic stacks below. -/
def traverseDescendants (repo : RepoStack) (branch : String) :
    Option (List (String × String)) :=
  buildUpdateList repo (repo.length + 1) [(branch, none)] []

/-- The literal `abort_on_conflict` argument passed to
`update_branch_with_conflict_detection` at the plain update command's
call site (commands/update.py, line 111). -/
def updateAbortOnConflict : Bool := true

/-- The literal `abort_on_conflict` argument passed to
`update_branch_with_conflict_detection` at the sync command's call site
(commands/sync.py, line 137). -/
def syncAbortOnConflict : Bool := true

/-- Result of one propagation pass, with an instrumentation trace:
`calls` records each invocation of the per-branch update operation, in
order, so that "the operation was never attempted on this branch" is a
statement about the run itself. -/
structure UpdateRun where
  updated : List String
  conflicted : List String
  calls : List (String × String)
  deriving DecidableEq, Repr

/-- Phase 2 of `update_branch_and_children`: walk the collected pairs in
order; a branch whose parent is already in the conflict list is appended
to the conflict list without invoking the operation; otherwise the
caller-supplied per-branch operation (the collaborator
`update_branch_with_conflict_detection`, modelled from the spec as an
opaque success/conflict outcome) is invoked with the call site's
`abort_on_conflict` flag. -/
def processUpdates (op : String → String → Bool → Bool) (flag : Bool) :
    List (String × String) → UpdateRun → UpdateRun
  | [], st => st
  | (child, parent) :: rest, st =>
      if parent ∈ st.conflicted then
        processUpdates op flag rest
          { st with conflicted := st.conflicted ++ [child] }
      else if op child parent flag then
        processUpdates op flag rest
          { st with updated := st.updated ++ [child],
                    calls := st.calls ++ [(child, parent)] }
      else
        processUpdates op flag rest
          { st with conflicted := st.conflicted ++ [child],
                    calls := st.calls ++ [(child, parent)] }

/-- Embeds `update_branch_and_children` of commands/update.py: build the
worklist order, then process every `(child, parent)` pair with the
cascading-skip rule, starting from empty `updated_branches` and
`conflict_branches` lists. -/
def update_branch_and_children (repo : RepoStack)
    (op : String → String → Bool → Bool) (branch : String) :
    Option UpdateRun :=
  (traverseDescendants repo branch).map
    (fun order => processUpdates op updateAbortOnConflict order ⟨[], [], []⟩)

/-- Embeds `update_branches_with_conflict_handling` of commands/sync.py,
which is textually the same algorithm with the sync call site's flag. -/
def update_branches_with_conflict_handling (repo : RepoStack)
    (op : String → String → Bool → Bool) (branch : String) :
    Option UpdateRun :=
  (traverseDescendants repo branch).map
    (fun order => processUpdates op syncAbortOnConflict order ⟨[], [], []⟩)

/-- Topological-order certificate for a list of `(branch, parent)`
pairs: walking the list left to right with `seen` the names already
listed, every entry's parent is either the traversal root or an earlier
entry. -/
inductive TopoFrom (R : String) : List String → List (String × String) → Prop
  | nil (seen : List String) : TopoFrom R seen []
  | cons (seen : List String) (c p : String) (rest : List (String × String)) :
      (p = R ∨ p ∈ seen) → TopoFrom R (seen ++ [c]) rest →
      TopoFrom R seen ((c, p) :: rest)

/-! ## Correctness of the worklist traversal (claim C2) -/

/-- What the worklist traversal of `update_branch_and_children` /
`update_branches_with_conflict_handling` computes: a duplicate-free,
topologically ordered listing of every proper descendant of the root,
each paired with its recorded parent. -/
def TraversalOutput (repo : RepoStack) (R : String)
    (l : List (String × String)) : Prop :=
  (∀ x, (∃ p, (x, p) ∈ l) ↔ Desc repo R x) ∧
  (l.map Prod.fst).Nodup ∧
  (∀ e ∈ l, dictGet repo e.1 = some e.2) ∧
  TopoFrom R [] l

/-! ## Concrete stacks used to instantiate the theorems -/

/-- The tracked chain `main <- a <- b <- c` of end-to-end scenario 2. -/
def chainRepo : RepoStack := [("a", "main"), ("b", "a"), ("c", "b")]

/-- Depth ranking of `chainRepo`, witnessing its acyclicity. -/
def chainRank (s : String) : Nat :=
  if s = "a" then 1 else if s = "b" then 2 else if s = "c" then 3 else 0

/-- The concrete store used to instantiate claim C3: branch `p` with
parent `g0` and children `c1`, `c2`, plus an unrelated branch `d`. -/
def smC3 : StacksMap := [("r", [("p", "g0"), ("c1", "p"), ("c2", "p"), ("d", "x")])]

/-- The two-repository store used to instantiate claim C9. -/
def smC9 : StacksMap := [("r", [("x", "main")]), ("s", [("y", "dev")])]

/-- The stack on which `add_to_stack` is asked to create a cycle:
`b` already descends from `a`, and the call re-parents `a` onto `b`. -/
def cycleRepo : RepoStack := [("a", "main"), ("b", "a")]

/-- The persisted store holding `cycleRepo` under identity `repo`. -/
def cycleSm : StacksMap := [("repo", cycleRepo)]

/-! ## Stacked-PR orchestrator: find_oldest_branch_without_pr (commands/pr.py) -/

/-- The recursion of `find_oldest_branch_without_pr` (pr.py, lines
18-32), with the `branch_has_pr` collaborator (a `gh pr view`
subprocess) passed in as a function and fuel modelling the unbounded
recursion; the local `parent = get_parent_branch(branch)` is inlined as
`parentOf repo branch`. -/
def findOldestAux (repo : RepoStack) (hasPR : String → Bool) :
    Nat → String → Option String
  | 0, _ => none
  | fuel + 1, branch =>
      if parentOf repo branch = "" ∨ parentOf repo branch = "main" ∨
          parentOf repo branch = "master" then some branch
      else if hasPR (parentOf repo branch) then some branch
      else findOldestAux repo hasPR fuel (parentOf repo branch)

/-- Embeds `find_oldest_branch_without_pr` of commands/pr.py with fuel
`repo.length + 1`, proved sufficient for acyclic stacks. -/
def find_oldest_branch_without_pr (repo : RepoStack) (hasPR : String → Bool)
    (branch : String) : Option String :=
  findOldestAux repo hasPR (repo.length + 1) branch

/-- The stopping condition of the walk: the branch's recorded parent is
empty, is the trunk (`main`/`master`), or already has a pull request. -/
def StopCond (repo : RepoStack) (hasPR : String → Bool) (b : String) : Prop :=
  parentOf repo b = "" ∨ parentOf repo b = "main" ∨ parentOf repo b = "master" ∨
    hasPR (parentOf repo b) = true

/-- The upward walk relation of `find_oldest_branch_without_pr`: `x` is
reached from `b` by following recorded parents through non-stopping
branches. -/
inductive ReachUp (repo : RepoStack) (hasPR : String → Bool) :
    String → String → Prop
  | refl (b : String) : ReachUp repo hasPR b b
  | step {b x : String} : ¬ StopCond repo hasPR b →
      ReachUp repo hasPR (parentOf repo b) x → ReachUp repo hasPR b x

/-! ## PR orchestration: process_branch_for_pr (commands/pr.py) -/

/-- Observable events of one PR-orchestration run: the status print at
the top of `process_branch_for_pr`, a `git push` attempt, and a
`gh pr create` invocation. -/
inductive PrEvent : Type
  | procStart (branch : String)
  | pushAttempt (branch : String)
  | prCreate (head base : String)
  deriving DecidableEq, Repr

/-- The external collaborators of commands/pr.py: `branch_has_pr`
(`gh pr view`), `is_branch_pushed_to_remote` (`git ls-remote`), the push
confirmation prompt, the push result, `git log parent..branch`, the PR
creation confirmation, and the `gh pr create` result. -/
structure PrEnv : Type where
  hasPR : String → Bool
  pushedToRemote : String → Bool
  confirmPush : String → Bool
  pushOk : String → Bool
  logOutput : String → String → String
  confirmCreate : String → Bool
  createOk : String → Bool

/-- Embeds `push_branch_to_remote` of commands/pr.py: one push attempt
whose success is the collaborator's answer. -/
def push_branch_to_remote (env : PrEnv) (branch : String) :
    Bool × List PrEvent :=
  (env.pushOk branch, [PrEvent.pushAttempt branch])

/-- Embeds `ensure_branch_pushed` of commands/pr.py (lines 84-95): an
already-pushed branch passes; otherwise the user is asked, and declining
returns `False` with no push attempted. -/
def ensure_branch_pushed (env : PrEnv) (branch : String) :
    Bool × List PrEvent :=
  if env.pushedToRemote branch then (true, [])
  else if env.confirmPush branch then push_branch_to_remote env branch
  else (false, [])

/-- Embeds `create_pr_for_branch` of commands/pr.py: both branches must
be pushed (short-circuit: the parent check never runs when the branch
check fails), there must be commits between them, and the user must
confirm; only then is `gh pr create` invoked.  The PR title/description
prompts return strings that affect no control flow and are omitted. -/
def create_pr_for_branch (env : PrEnv) (branch parent : String) :
    Bool × List PrEvent :=
  let e1 := ensure_branch_pushed env branch
  if e1.1 = false then (false, e1.2)
  else
    let e2 := ensure_branch_pushed env parent
    if e2.1 = false then (false, e1.2 ++ e2.2)
    else if (env.logOutput parent branch).trim = "" then (false, e1.2 ++ e2.2)
    else if env.confirmCreate branch = false then (false, e1.2 ++ e2.2)
    else (env.createOk branch, e1.2 ++ e2.2 ++ [PrEvent.prCreate branch parent])

/-- The upward `while` loop of `is_branch_in_path_to_target`
(commands/pr.py, lines 180-188), with fuel for the unbounded walk. -/
def isInPathAux (repo : RepoStack) (child stopAt : String) :
    Nat → String → Option Bool
  | 0, _ => none
  | fuel + 1, current =>
      if current = "" ∨ current = stopAt then some false
      else if current = child then some true
      else isInPathAux repo child stopAt fuel (parentOf repo current)

/-- Embeds `is_branch_in_path_to_target(child, branch_name,
parent_branch)` of commands/pr.py. -/
def is_branch_in_path_to_target (repo : RepoStack)
    (child branchName parentBranch : String) : Option Bool :=
  isInPathAux repo child parentBranch (repo.length + 1) branchName

mutual

/-- Embeds `process_branch_for_pr` of commands/pr.py (lines 191-219):
report the branch, create its PR unless one exists (an absent parent
defaults to `main`), and only when the PR exists or was created recurse
into the children that lead to the target; on failure the children are
skipped entirely.  Returns the event trace; `none` models divergence. -/
def process_branch_for_pr (env : PrEnv) (repo : RepoStack) :
    Nat → String → String → Option (List PrEvent)
  | 0, _, _ => none
  | fuel + 1, branch, target =>
      let pc :=
        if env.hasPR branch then (true, ([] : List PrEvent))
        else
          create_pr_for_branch env branch
            (if parentOf repo branch = "" then "main" else parentOf repo branch)
      if pc.1 then
        match processChildrenForPr env repo fuel (get_children repo branch)
            branch target with
        | none => none
        | some t2 => some (PrEvent.procStart branch :: (pc.2 ++ t2))
      else some (PrEvent.procStart branch :: pc.2)

/-- The `for child in get_child_branches(branch)` loop of
`process_branch_for_pr`: a child is processed when it lies on the path
to the target or is the target. -/
def processChildrenForPr (env : PrEnv) (repo : RepoStack) :
    Nat → List String → String → String → Option (List PrEvent)
  | 0, _, _, _ => none
  | _ + 1, [], _, _ => some []
  | fuel + 1, child :: rest, branch, target =>
      match is_branch_in_path_to_target repo child target branch with
      | none => none
      | some inPath =>
          if inPath || child == target then
            match process_branch_for_pr env repo fuel child target with
            | none => none
            | some t1 =>
                match processChildrenForPr env repo fuel rest branch target with
                | none => none
                | some t2 => some (t1 ++ t2)
          else processChildrenForPr env repo fuel rest branch target

end

/-- The chain `main <- base <- feature` of end-to-end scenario 3. -/
def prRepo : RepoStack := [("base", "main"), ("feature", "base")]

/-- The all-declining environment: no PRs exist, nothing is pushed,
every prompt is answered no, every external operation fails. -/
def prEnvDecline : PrEnv :=
  ⟨fun _ => false, fun _ => false, fun _ => false, fun _ => false,
   fun _ _ => "", fun _ => false, fun _ => false⟩

/-! ## Branch deletion: delete_branch (commands/delete.py) -/

/-- Observable events of one `delete_branch` run: the deletion
confirmation prompt and the git operations. -/
inductive DelEvent : Type
  | confirmPrompt
  | gitCheckout (b : String)
  | gitRebase (b onto : String)
  | gitBranchDelete (b : String)
  deriving DecidableEq, Repr

/-- How a `delete_branch` run ends: `sys.exit(1)`, a user cancellation
(plain return), or successful completion. -/
inductive DelOutcome : Type
  | exited
  | cancelled
  | completed
  deriving DecidableEq, Repr

/-- The external collaborators of commands/delete.py: the current
branch, branch existence, the resolved repository identity, the
confirmation answer, and the git results. -/
structure DelEnv : Type where
  currentBranch : String
  branchExists : String → Bool
  repoId : String
  confirmDelete : Bool
  checkoutOk : String → Bool
  rebaseOk : String → Bool
  deleteOk : Bool

/-- The child-relinking loop of `delete_branch` (delete.py, lines
73-119): checkout each child (on failure checkout back and exit), rebase
onto the grandparent when there is one (on conflict exit), then record
the new parent via `add_to_stack`.  The boolean marks an early
`sys.exit`; `none` models the uncaught exception `add_to_stack` raises
on a missing stack file. -/
def processChildBranches (env : DelEnv) (parentBranch current : String) :
    List String → StackFile → List DelEvent →
    Option (Bool × StackFile × List DelEvent)
  | [], file, evs => some (false, file, evs)
  | child :: rest, file, evs =>
      let evs1 := evs ++ [DelEvent.gitCheckout child]
      if env.checkoutOk child then
        if parentBranch = "" then
          processChildBranches env parentBranch current rest file evs1
        else
          let evs2 := evs1 ++ [DelEvent.gitRebase child parentBranch]
          if env.rebaseOk child then
            match add_to_stack file env.repoId child parentBranch with
            | none => none
            | some file2 =>
                processChildBranches env parentBranch current rest file2 evs2
          else some (true, file, evs2)
      else some (true, file, evs1 ++ [DelEvent.gitCheckout current])

/-- Embeds `delete_branch` of commands/delete.py: existence check, the
current-branch guard, parent existence check, confirmation prompt,
child relinking, checkout back, `git branch -D`, and the final
`remove_from_stack`. -/
def delete_branch (env : DelEnv) (file : StackFile) (branch_name : String) :
    Option (DelOutcome × StackFile × List DelEvent) :=
  if env.branchExists branch_name = false then
    some (.exited, file, [])
  else if branch_name = env.currentBranch then
    some (.exited, file, [])
  else
    let parentBranch := (get_parent_branch file env.repoId branch_name).1
    let childBranches := (get_child_branches file env.repoId branch_name).1
    if parentBranch ≠ "" ∧ env.branchExists parentBranch = false then
      some (.exited, file, [])
    else if env.confirmDelete = false then
      some (.cancelled, file, [DelEvent.confirmPrompt])
    else
      match processChildBranches env parentBranch env.currentBranch
          childBranches file [DelEvent.confirmPrompt] with
      | none => none
      | some (exitedEarly, file2, evs) =>
          if exitedEarly then some (.exited, file2, evs)
          else
            let evs2 := evs ++
              (if branch_name = env.currentBranch then []
               else [DelEvent.gitCheckout env.currentBranch])
            let evs3 := evs2 ++ [DelEvent.gitBranchDelete branch_name]
            if env.deleteOk = false then some (.exited, file2, evs3)
            else
              some (.completed,
                (remove_from_stack file2 env.repoId branch_name).1, evs3)

/-- A fully-permissive environment whose current branch is `feature`. -/
def delEnvC10 : DelEnv :=
  ⟨"feature", fun _ => true, "r", true, fun _ => true, fun _ => true, true⟩

/-! ## Lemmas and claim theorems -/

section DictLemmas

variable {β : Type}

theorem dictGet_eq_none_of_not_mem {l : List (String × β)} {k : String}
    (h : k ∉ l.map Prod.fst) : dictGet l k = none := by
  induction l with
  | nil => rfl
  | cons e rest ih =>
      obtain ⟨a, b⟩ := e
      simp only [List.map_cons, List.mem_cons, not_or] at h
      simp only [dictGet, if_neg (Ne.symm h.1)]
      exact ih h.2

theorem dictGet_dictSet_self (l : List (String × β)) (k : String) (v : β) :
    dictGet (dictSet l k v) k = some v := by
  induction l with
  | nil => simp [dictSet, dictGet]
  | cons e rest ih =>
      obtain ⟨a, b⟩ := e
      by_cases h : a = k
      · subst h
        simp [dictSet, dictGet]
      · simp [dictSet, dictGet, h, ih]

theorem dictGet_dictSet_ne (l : List (String × β)) {k k' : String} (v : β)
    (h : k' ≠ k) : dictGet (dictSet l k v) k' = dictGet l k' := by
  induction l with
  | nil => simp [dictSet, dictGet, Ne.symm h]
  | cons e rest ih =>
      obtain ⟨a, b⟩ := e
      by_cases ha : a = k
      · subst ha
        simp [dictSet, dictGet, Ne.symm h]
      · by_cases hk' : a = k'
        · simp [dictSet, dictGet, ha, hk', h]
        · simp [dictSet, dictGet, ha, hk', ih]

theorem dictGet_dictDelete_ne (l : List (String × β)) {k k' : String}
    (h : k' ≠ k) : dictGet (dictDelete l k) k' = dictGet l k' := by
  induction l with
  | nil => rfl
  | cons e rest ih =>
      obtain ⟨a, b⟩ := e
      by_cases ha : a = k
      · subst ha
        simp [dictDelete, dictGet, Ne.symm h]
      · by_cases hk' : a = k'
        · simp [dictDelete, dictGet, ha, hk', h]
        · simp [dictDelete, dictGet, ha, hk', ih]

theorem dictGet_dictDelete_self (l : List (String × β)) (k : String)
    (h : (l.map Prod.fst).Nodup) : dictGet (dictDelete l k) k = none := by
  induction l with
  | nil => rfl
  | cons e rest ih =>
      obtain ⟨a, b⟩ := e
      simp only [List.map_cons, List.nodup_cons] at h
      by_cases ha : a = k
      · subst ha
        simp only [dictDelete, if_pos rfl]
        exact dictGet_eq_none_of_not_mem h.1
      · simp only [dictDelete, if_neg ha, dictGet, if_neg ha]
        exact ih h.2

theorem dictGet_mem {l : List (String × β)} {k : String} {v : β}
    (h : dictGet l k = some v) : (k, v) ∈ l := by
  induction l with
  | nil => simp [dictGet] at h
  | cons e rest ih =>
      obtain ⟨a, b⟩ := e
      by_cases ha : a = k
      · subst ha
        simp [dictGet] at h
        subst h
        exact List.mem_cons_self _ _
      · simp only [dictGet, if_neg ha] at h
        exact List.mem_cons_of_mem _ (ih h)

theorem mem_dictGet {l : List (String × β)} {k : String} {v : β}
    (hnd : (l.map Prod.fst).Nodup) (h : (k, v) ∈ l) : dictGet l k = some v := by
  induction l with
  | nil => simp at h
  | cons e rest ih =>
      obtain ⟨a, b⟩ := e
      simp only [List.map_cons, List.nodup_cons] at hnd
      rcases List.mem_cons.mp h with h1 | h1
      · rw [Prod.mk.injEq] at h1
        obtain ⟨rfl, rfl⟩ := h1
        simp [dictGet]
      · have hk : a ≠ k := by
          intro hh
          subst hh
          exact hnd.1 (List.mem_map.mpr ⟨(a, v), h1, rfl⟩)
        simp only [dictGet, if_neg hk]
        exact ih hnd.2 h1

theorem dictGet_mem_keys {l : List (String × β)} {k : String} {v : β}
    (h : dictGet l k = some v) : k ∈ l.map Prod.fst :=
  List.mem_map.mpr ⟨(k, v), dictGet_mem h, rfl⟩

/-- Looking up a branch in the list produced by the re-linking loop of
`remove_from_stack` rewrites the looked-up parent value and nothing
else. -/
theorem dictGet_relink (repo : RepoStack) (b g c : String) :
    dictGet (repo.map fun e => if e.2 = b then (e.1, g) else e) c =
      (dictGet repo c).map (fun v => if v = b then g else v) := by
  induction repo with
  | nil => rfl
  | cons e rest ih =>
      obtain ⟨a, v⟩ := e
      simp only [List.map_cons]
      by_cases hv : v = b
      · simp only [if_pos hv]
        by_cases hac : a = c
        · subst hac
          simp [dictGet, hv]
        · simp [dictGet, hac, ih]
      · simp only [if_neg hv]
        by_cases hac : a = c
        · subst hac
          simp [dictGet, hv]
        · simp [dictGet, hac, ih]

/-- The re-linking loop of `remove_from_stack` does not change the key
set of the repository mapping. -/
theorem relink_keys (repo : RepoStack) (b g : String) :
    ((repo.map fun e => if e.2 = b then (e.1, g) else e).map Prod.fst) =
      repo.map Prod.fst := by
  rw [List.map_map]
  apply List.map_congr_left
  intro e _
  by_cases h2 : e.2 = b <;> simp [h2]

end DictLemmas

theorem Desc.append_child {repo : RepoStack} {p c d : String}
    (h : Desc repo p c) (hd : dictGet repo d = some c) : Desc repo p d := by
  induction h with
  | single h1 => exact Desc.head h1 (Desc.single hd)
  | head h1 _ ih => exact Desc.head h1 (ih hd)

theorem Desc.trans {repo : RepoStack} {a b c : String}
    (h1 : Desc repo a b) (h2 : Desc repo b c) : Desc repo a c := by
  induction h2 generalizing a with
  | single h => exact h1.append_child h
  | head h _ ih => exact ih (h1.append_child h)

theorem Desc.last_link {repo : RepoStack} {p x : String}
    (h : Desc repo p x) : ∃ q, dictGet repo x = some q := by
  induction h with
  | single h1 => exact ⟨_, h1⟩
  | head _ _ ih => exact ih

theorem Desc.mem_keys {repo : RepoStack} {p x : String}
    (h : Desc repo p x) : x ∈ repo.map Prod.fst := by
  obtain ⟨q, hq⟩ := h.last_link
  exact dictGet_mem_keys hq

theorem mem_get_children {repo : RepoStack} {c b : String} :
    c ∈ get_children repo b ↔ (c, b) ∈ repo := by
  simp only [get_children, List.mem_map, List.mem_filter, decide_eq_true_eq]
  constructor
  · rintro ⟨⟨a, b'⟩, ⟨he, rfl⟩, rfl⟩
    exact he
  · intro h
    exact ⟨(c, b), ⟨h, rfl⟩, rfl⟩

theorem get_children_nodup {repo : RepoStack} (hnd : (repo.map Prod.fst).Nodup)
    (b : String) : (get_children repo b).Nodup := by
  have hsub : (get_children repo b).Sublist (repo.map Prod.fst) :=
    (List.filter_sublist repo).map Prod.fst
  exact hnd.sublist hsub

theorem dictGet_of_mem_get_children {repo : RepoStack}
    (hnd : (repo.map Prod.fst).Nodup) {c b : String}
    (h : c ∈ get_children repo b) : dictGet repo c = some b :=
  mem_dictGet hnd (mem_get_children.mp h)

/-- A ranking argument establishing the no-cycle invariant: if some
numeric rank strictly drops along every recorded parent link, the parent
graph has no cycle.  Used to discharge `NoCycle` on concrete stacks. -/
theorem noCycle_of_rank (repo : RepoStack) (rk : String → Nat)
    (h : ∀ c p, dictGet repo c = some p → rk p < rk c) : NoCycle repo := by
  have hdesc : ∀ p x, Desc repo p x → rk p < rk x := by
    intro p x hd
    induction hd with
    | single h1 => exact h _ _ h1
    | head h1 _ ih => exact (h _ _ h1).trans ih
  intro b hb
  exact absurd (hdesc b b hb) (lt_irrefl _)

theorem TopoFrom.snoc {R : String} {seen : List String}
    {l : List (String × String)} (h : TopoFrom R seen l) (c p : String)
    (hp : p = R ∨ p ∈ seen ++ l.map Prod.fst) :
    TopoFrom R seen (l ++ [(c, p)]) := by
  induction h with
  | nil seen =>
      refine TopoFrom.cons seen c p [] ?_ (TopoFrom.nil _)
      simpa using hp
  | cons seen c' p' rest hp' _ ih =>
      refine TopoFrom.cons seen c' p' (rest ++ [(c, p)]) hp' (ih ?_)
      rcases hp with h1 | h1
      · exact Or.inl h1
      · right
        simp only [List.map_cons, List.mem_append, List.mem_cons] at h1 ⊢
        tauto

theorem TopoFrom.parent_mem {R : String} {seen : List String}
    {l : List (String × String)} (h : TopoFrom R seen l) :
    ∀ e ∈ l, e.2 = R ∨ e.2 ∈ seen ++ l.map Prod.fst := by
  induction h with
  | nil seen => intro e he; simp at he
  | cons seen c p rest hp _ ih =>
      intro e he
      rcases List.mem_cons.mp he with rfl | he1
      · rcases hp with h1 | h1
        · exact Or.inl h1
        · exact Or.inr (by simp [h1])
      · rcases ih e he1 with h1 | h1
        · exact Or.inl h1
        · right
          simp only [List.mem_append] at h1 ⊢
          simp only [List.mem_append, List.mem_singleton] at h1
          rcases h1 with (h2 | h2) | h2
          · exact Or.inl h2
          · exact Or.inr (by simp [h2])
          · exact Or.inr (by simp [h2])

theorem TopoFrom.take_mem {R : String} {seen : List String}
    {l : List (String × String)} (h : TopoFrom R seen l) :
    ∀ i : Fin l.length,
      (l.get i).2 = R ∨ (l.get i).2 ∈ seen ++ (l.take i.val).map Prod.fst := by
  induction h with
  | nil seen => intro i; exact absurd i.isLt (by simp)
  | cons seen c p rest hp _ ih =>
      intro i
      match i with
      | ⟨0, _⟩ =>
          rcases hp with h1 | h1
          · exact Or.inl h1
          · exact Or.inr (by simpa using h1)
      | ⟨j + 1, hj⟩ =>
          have hj' : j < rest.length := by simpa using hj
          rcases ih ⟨j, hj'⟩ with h1 | h1
          · exact Or.inl h1
          · right
            simp only [List.mem_append] at h1 ⊢
            simp only [List.mem_append, List.mem_singleton] at h1
            simp only [List.take_succ_cons, List.map_cons, List.mem_cons]
            tauto

/-- The terminal state of the worklist loop: an empty queue together
with the loop invariants yields the required output properties. -/
theorem bfs_done {repo : RepoStack} {R : String}
    (acc : List (String × String))
    (hNd : (R :: (acc.map Prod.fst ++ ([] : List String))).Nodup)
    (hAch : ∀ e ∈ acc, dictGet repo e.1 = some e.2)
    (hTopo : TopoFrom R [] acc)
    (hDA : ∀ e ∈ acc, Desc repo R e.1)
    (hCov : ∀ x, Desc repo R x → x ∈ acc.map Prod.fst ∨
        ∃ e ∈ ([] : List (String × String)), x = e.1 ∨ Desc repo e.1 x) :
    TraversalOutput repo R acc := by
  refine ⟨?_, ?_, hAch, hTopo⟩
  · intro x
    constructor
    · rintro ⟨p, hp⟩
      exact hDA (x, p) hp
    · intro hx
      rcases hCov x hx with h1 | ⟨e, he, _⟩
      · rcases List.mem_map.mp h1 with ⟨e, he, rfl⟩
        exact ⟨e.2, he⟩
      · simp at he
  · have h2 := hNd
    simp only [List.append_nil] at h2
    exact (List.nodup_cons.mp h2).2

/-- The worklist-loop invariant, proved stable by one loop iteration:
with enough fuel (measured against the queue plus the not-yet-enqueued
descendants `avail`), the loop terminates and its accumulated list
satisfies `TraversalOutput`.  Queue entries are `(branch, parent)` pairs
whose parent link is already recorded and already emitted (or is the
root), and all names ever enqueued — root, emitted, queued — are
pairwise distinct. -/
theorem buildUpdateList_invariant {repo : RepoStack} {R : String}
    (hnd : (repo.map Prod.fst).Nodup) (hnc : NoCycle repo) :
    ∀ (fuel : Nat) (queue acc : List (String × String)) (avail : Finset String),
      queue.length + avail.card ≤ fuel →
      (∀ e ∈ queue, dictGet repo e.1 = some e.2) →
      (∀ e ∈ queue, e.2 = R ∨ e.2 ∈ acc.map Prod.fst) →
      (R :: (acc.map Prod.fst ++ queue.map Prod.fst)).Nodup →
      (∀ e ∈ acc, dictGet repo e.1 = some e.2) →
      TopoFrom R [] acc →
      (∀ e ∈ queue, Desc repo R e.1) →
      (∀ e ∈ acc, Desc repo R e.1) →
      (∀ x, Desc repo R x → x ∈ acc.map Prod.fst ∨
          ∃ e ∈ queue, x = e.1 ∨ Desc repo e.1 x) →
      (∀ x, Desc repo R x → x ∉ acc.map Prod.fst → x ∉ queue.map Prod.fst →
          x ∈ avail) →
      ∃ l, buildUpdateList repo fuel (queue.map (fun e => (e.1, some e.2))) acc
          = some l ∧ TraversalOutput repo R l := by
  intro fuel
  induction fuel with
  | zero =>
      intro queue acc avail hfuel hQch hQpar hNd hAch hTopo hDQ hDA hCov hAv
      cases queue with
      | nil =>
          exact ⟨acc, rfl, bfs_done acc (by simpa using hNd) hAch hTopo hDA
            (by simpa using hCov)⟩
      | cons e rest =>
          simp only [List.length_cons] at hfuel
          omega
  | succ f ih =>
      intro queue acc avail hfuel hQch hQpar hNd hAch hTopo hDQ hDA hCov hAv
      cases queue with
      | nil =>
          exact ⟨acc, rfl, bfs_done acc (by simpa using hNd) hAch hTopo hDA
            (by simpa using hCov)⟩
      | cons e rest =>
          obtain ⟨c, p⟩ := e
          have hcq : (c, p) ∈ (c, p) :: rest := List.mem_cons_self _ _
          have hcdesc : Desc repo R c := hDQ (c, p) hcq
          have hcget : dictGet repo c = some p := hQch (c, p) hcq
          have hNd' : (R :: (acc.map Prod.fst ++ (c :: rest.map Prod.fst))).Nodup := by
            simpa using hNd
          have hRnot : R ∉ acc.map Prod.fst ++ (c :: rest.map Prod.fst) :=
            (List.nodup_cons.mp hNd').1
          have hndtail : (acc.map Prod.fst ++ (c :: rest.map Prod.fst)).Nodup :=
            (List.nodup_cons.mp hNd').2
          obtain ⟨hndacc, hndcr, hdisj⟩ := List.nodup_append.mp hndtail
          have hcnotacc : c ∉ acc.map Prod.fst :=
            fun hc => hdisj hc (List.mem_cons_self _ _)
          have hcneR : c ≠ R := by
            intro hh
            exact hRnot (by
              subst hh
              exact List.mem_append_right _ (List.mem_cons_self _ _))
          have hparent_ne_c : ∀ q, (q = R ∨ q ∈ acc.map Prod.fst) → q ≠ c := by
            intro q hq
            rcases hq with rfl | hq2
            · exact fun hh => hcneR hh.symm
            · intro hh
              subst hh
              exact hcnotacc hq2
          have hkids_nodup : (get_children repo c).Nodup :=
            get_children_nodup hnd c
          have hkid_get : ∀ d ∈ get_children repo c, dictGet repo d = some c :=
            fun d hd => dictGet_of_mem_get_children hnd hd
          have hkid_desc : ∀ d ∈ get_children repo c, Desc repo R d :=
            fun d hd => hcdesc.append_child (hkid_get d hd)
          have hfresh : ∀ d ∈ get_children repo c,
              d ≠ R ∧ d ≠ c ∧ d ∉ acc.map Prod.fst ∧ d ∉ rest.map Prod.fst := by
            intro d hd
            refine ⟨?_, ?_, ?_, ?_⟩
            · intro hdR
              apply hnc R
              have hlink : dictGet repo R = some c := by
                rw [← hdR]
                exact hkid_get _ hd
              exact hcdesc.trans (Desc.single hlink)
            · intro hdc
              apply hnc c
              have hlink : dictGet repo d = some c := hkid_get _ hd
              rw [hdc] at hlink
              exact Desc.single hlink
            · intro hdacc
              rcases List.mem_map.mp hdacc with ⟨e', he', hfst⟩
              have hq : dictGet repo e'.1 = some e'.2 := hAch _ he'
              rw [hfst, hkid_get d hd] at hq
              injection hq with hq
              have hpm := hTopo.parent_mem e' he'
              simp only [List.nil_append] at hpm
              rw [← hq] at hpm
              exact hparent_ne_c c hpm rfl
            · intro hdrest
              rcases List.mem_map.mp hdrest with ⟨e', he', hfst⟩
              have hq : dictGet repo e'.1 = some e'.2 :=
                hQch _ (List.mem_cons_of_mem _ he')
              rw [hfst, hkid_get d hd] at hq
              injection hq with hq
              have hpm := hQpar _ (List.mem_cons_of_mem _ he')
              rw [← hq] at hpm
              exact hparent_ne_c c hpm rfl
          -- new state entering the next iteration
          have hsub : (get_children repo c).toFinset ⊆ avail := by
            intro d hd
            rw [List.mem_toFinset] at hd
            obtain ⟨_, hdc, hdacc, hdrest⟩ := hfresh d hd
            refine hAv d (hkid_desc d hd) hdacc ?_
            simp only [List.map_cons, List.mem_cons]
            exact fun hh => hh.elim hdc (fun hh2 => hdrest hh2)
          have hcard : ((get_children repo c).toFinset).card
              = (get_children repo c).length :=
            List.toFinset_card_of_nodup hkids_nodup
          have hcardle : ((get_children repo c).toFinset).card ≤ avail.card :=
            Finset.card_le_card hsub
          have hfuel2 :
              (rest ++ (get_children repo c).map (fun d => (d, c))).length +
                (avail \ (get_children repo c).toFinset).card ≤ f := by
            rw [Finset.card_sdiff hsub]
            simp only [List.length_append, List.length_map]
            simp only [List.length_cons] at hfuel
            omega
          have hQch2 : ∀ e ∈ rest ++ (get_children repo c).map (fun d => (d, c)),
              dictGet repo e.1 = some e.2 := by
            intro e he
            rcases List.mem_append.mp he with he1 | he1
            · exact hQch e (List.mem_cons_of_mem _ he1)
            · rcases List.mem_map.mp he1 with ⟨d, hd, rfl⟩
              exact hkid_get d hd
          have hQpar2 : ∀ e ∈ rest ++ (get_children repo c).map (fun d => (d, c)),
              e.2 = R ∨ e.2 ∈ (acc ++ [(c, p)]).map Prod.fst := by
            intro e he
            rcases List.mem_append.mp he with he1 | he1
            · rcases hQpar e (List.mem_cons_of_mem _ he1) with h1 | h1
              · exact Or.inl h1
              · exact Or.inr (by simp [h1])
            · rcases List.mem_map.mp he1 with ⟨d, hd, rfl⟩
              exact Or.inr (by simp)
          have hNd2 : (R :: ((acc ++ [(c, p)]).map Prod.fst ++
              (rest ++ (get_children repo c).map (fun d => (d, c))).map
                Prod.fst)).Nodup := by
            have heq : R :: ((acc ++ [(c, p)]).map Prod.fst ++
                (rest ++ (get_children repo c).map (fun d => (d, c))).map
                  Prod.fst) =
                (R :: (acc.map Prod.fst ++ (c :: rest.map Prod.fst))) ++
                  get_children repo c := by
              simp [List.map_map, Function.comp_def]
            rw [heq]
            rw [List.nodup_append]
            refine ⟨hNd', hkids_nodup, ?_⟩
            intro a ha hak
            obtain ⟨haR, hac, haacc, harest⟩ := hfresh a hak
            rcases List.mem_cons.mp ha with rfl | ha1
            · exact haR rfl
            · rcases List.mem_append.mp ha1 with ha2 | ha2
              · exact haacc ha2
              · rcases List.mem_cons.mp ha2 with rfl | ha3
                · exact hac rfl
                · exact harest ha3
          have hAch2 : ∀ e ∈ acc ++ [(c, p)], dictGet repo e.1 = some e.2 := by
            intro e he
            rcases List.mem_append.mp he with he1 | he1
            · exact hAch e he1
            · rcases List.mem_singleton.mp he1 with rfl
              exact hcget
          have hTopo2 : TopoFrom R [] (acc ++ [(c, p)]) := by
            refine hTopo.snoc c p ?_
            have := hQpar (c, p) hcq
            simpa using this
          have hDQ2 : ∀ e ∈ rest ++ (get_children repo c).map (fun d => (d, c)),
              Desc repo R e.1 := by
            intro e he
            rcases List.mem_append.mp he with he1 | he1
            · exact hDQ e (List.mem_cons_of_mem _ he1)
            · rcases List.mem_map.mp he1 with ⟨d, hd, rfl⟩
              exact hkid_desc d hd
          have hDA2 : ∀ e ∈ acc ++ [(c, p)], Desc repo R e.1 := by
            intro e he
            rcases List.mem_append.mp he with he1 | he1
            · exact hDA e he1
            · rcases List.mem_singleton.mp he1 with rfl
              exact hcdesc
          have hCov2 : ∀ x, Desc repo R x →
              x ∈ (acc ++ [(c, p)]).map Prod.fst ∨
              ∃ e ∈ rest ++ (get_children repo c).map (fun d => (d, c)),
                x = e.1 ∨ Desc repo e.1 x := by
            intro x hx
            rcases hCov x hx with h1 | ⟨e, he, h2⟩
            · exact Or.inl (by simp only [List.map_append]; exact
                List.mem_append_left _ h1)
            · rcases List.mem_cons.mp he with rfl | he1
              · rcases h2 with rfl | h3
                · exact Or.inl (by simp)
                · cases h3 with
                  | single hlink =>
                      refine Or.inr ⟨(x, c), ?_, Or.inl rfl⟩
                      exact List.mem_append_right _ (List.mem_map.mpr
                        ⟨x, mem_get_children.mpr (dictGet_mem hlink), rfl⟩)
                  | head hlink hdesc =>
                      rename_i mid
                      refine Or.inr ⟨(mid, c), ?_, Or.inr hdesc⟩
                      exact List.mem_append_right _ (List.mem_map.mpr
                        ⟨mid, mem_get_children.mpr (dictGet_mem hlink), rfl⟩)
              · exact Or.inr ⟨e, List.mem_append_left _ he1, h2⟩
          have hAv2 : ∀ x, Desc repo R x →
              x ∉ (acc ++ [(c, p)]).map Prod.fst →
              x ∉ (rest ++ (get_children repo c).map (fun d => (d, c))).map
                Prod.fst →
              x ∈ avail \ (get_children repo c).toFinset := by
            intro x hx hxacc hxq
            simp only [List.map_append, List.mem_append, not_or,
              List.map_map] at hxacc hxq
            have hxacc1 : x ∉ acc.map Prod.fst := hxacc.1
            have hxc : x ≠ c := by
              intro hh
              exact hxacc.2 (by simp [hh])
            have hxrest : x ∉ rest.map Prod.fst := hxq.1
            have hxkids : x ∉ get_children repo c := by
              intro hh
              exact hxq.2 (by
                simp only [List.mem_map, Function.comp_def]
                exact ⟨x, hh, rfl⟩)
            rw [Finset.mem_sdiff]
            refine ⟨hAv x hx hxacc1 ?_, by
              rw [List.mem_toFinset]; exact hxkids⟩
            simp only [List.map_cons, List.mem_cons]
            exact fun hh => hh.elim hxc (fun h2 => hxrest h2)
          obtain ⟨l, hl, hout⟩ := ih
            (rest ++ (get_children repo c).map (fun d => (d, c)))
            (acc ++ [(c, p)]) (avail \ (get_children repo c).toFinset)
            hfuel2 hQch2 hQpar2 hNd2 hAch2 hTopo2 hDQ2 hDA2 hCov2 hAv2
          refine ⟨l, ?_, hout⟩
          have harg : (rest ++ (get_children repo c).map (fun d => (d, c))).map
              (fun e => (e.1, some e.2)) =
              rest.map (fun e => (e.1, some e.2)) ++
                (get_children repo c).map (fun d => (d, some c)) := by
            simp [List.map_map, Function.comp_def]
          rw [harg] at hl
          simpa only [List.map_cons, buildUpdateList] using hl

/-- Claim C2: on any stack with duplicate-free keys satisfying the
no-cycle invariant, the worklist traversal shared by `update.py` and
`sync.py` terminates and its list of `(branch, parent)` pairs contains
every proper descendant of the root exactly once, never contains the
root itself, records each branch's true recorded parent, and lists each
branch strictly after its recorded parent (or the parent is the root). -/
theorem traversal_topological (repo : RepoStack) (R : String)
    (hnd : (repo.map Prod.fst).Nodup) (hnc : NoCycle repo) :
    ∃ l, traverseDescendants repo R = some l ∧
      (∀ x, (∃ p, (x, p) ∈ l) ↔ Desc repo R x) ∧
      (l.map Prod.fst).Nodup ∧
      (∀ p, (R, p) ∉ l) ∧
      (∀ e ∈ l, dictGet repo e.1 = some e.2) ∧
      (∀ i : Fin l.length, (l.get i).2 = R ∨
          (l.get i).2 ∈ (l.take i.val).map Prod.fst) := by
  have hkids_nodup : (get_children repo R).Nodup := get_children_nodup hnd R
  have hkid_get : ∀ d ∈ get_children repo R, dictGet repo d = some R :=
    fun d hd => dictGet_of_mem_get_children hnd hd
  have hRnot : R ∉ get_children repo R := by
    intro h
    exact hnc R (Desc.single (hkid_get R h))
  have hkeys : ((get_children repo R).map (fun d => (d, R))).map Prod.fst =
      get_children repo R := by
    simp [List.map_map, Function.comp_def]
  have hkid_sub : (get_children repo R).toFinset ⊆
      (repo.map Prod.fst).toFinset := by
    intro d hd
    rw [List.mem_toFinset] at hd ⊢
    exact dictGet_mem_keys (hkid_get d hd)
  have hfuel : ((get_children repo R).map (fun d => (d, R))).length +
      ((repo.map Prod.fst).toFinset \ (get_children repo R).toFinset).card ≤
      repo.length := by
    rw [Finset.card_sdiff hkid_sub]
    simp only [List.length_map]
    have h1 : ((get_children repo R).toFinset).card =
        (get_children repo R).length :=
      List.toFinset_card_of_nodup hkids_nodup
    have h2 : ((repo.map Prod.fst).toFinset).card ≤ (repo.map Prod.fst).length :=
      List.toFinset_card_le _
    have h3 := Finset.card_le_card hkid_sub
    simp only [List.length_map] at h2
    omega
  have hQch : ∀ e ∈ (get_children repo R).map (fun d => (d, R)),
      dictGet repo e.1 = some e.2 := by
    intro e he
    rcases List.mem_map.mp he with ⟨d, hd, rfl⟩
    exact hkid_get d hd
  have hQpar : ∀ e ∈ (get_children repo R).map (fun d => (d, R)),
      e.2 = R ∨ e.2 ∈ ([] : List (String × String)).map Prod.fst := by
    intro e he
    rcases List.mem_map.mp he with ⟨d, hd, rfl⟩
    exact Or.inl rfl
  have hNd : (R :: (([] : List (String × String)).map Prod.fst ++
      ((get_children repo R).map (fun d => (d, R))).map Prod.fst)).Nodup := by
    rw [hkeys]
    simp only [List.map_nil, List.nil_append]
    exact List.nodup_cons.mpr ⟨hRnot, hkids_nodup⟩
  have hAch : ∀ e ∈ ([] : List (String × String)),
      dictGet repo e.1 = some e.2 := by
    intro e he
    simp at he
  have hTopo0 : TopoFrom R [] ([] : List (String × String)) := TopoFrom.nil _
  have hDQ : ∀ e ∈ (get_children repo R).map (fun d => (d, R)),
      Desc repo R e.1 := by
    intro e he
    rcases List.mem_map.mp he with ⟨d, hd, rfl⟩
    exact Desc.single (hkid_get d hd)
  have hDA : ∀ e ∈ ([] : List (String × String)), Desc repo R e.1 := by
    intro e he
    simp at he
  have hCov : ∀ x, Desc repo R x →
      x ∈ ([] : List (String × String)).map Prod.fst ∨
      ∃ e ∈ (get_children repo R).map (fun d => (d, R)),
        x = e.1 ∨ Desc repo e.1 x := by
    intro x hx
    cases hx with
    | single hlink =>
        exact Or.inr ⟨(x, R), List.mem_map.mpr
          ⟨x, mem_get_children.mpr (dictGet_mem hlink), rfl⟩, Or.inl rfl⟩
    | head hlink hdesc =>
        rename_i mid
        exact Or.inr ⟨(mid, R), List.mem_map.mpr
          ⟨mid, mem_get_children.mpr (dictGet_mem hlink), rfl⟩, Or.inr hdesc⟩
  have hAv : ∀ x, Desc repo R x →
      x ∉ ([] : List (String × String)).map Prod.fst →
      x ∉ ((get_children repo R).map (fun d => (d, R))).map Prod.fst →
      x ∈ (repo.map Prod.fst).toFinset \ (get_children repo R).toFinset := by
    intro x hx _ hxq
    rw [hkeys] at hxq
    rw [Finset.mem_sdiff]
    constructor
    · rw [List.mem_toFinset]
      exact hx.mem_keys
    · rw [List.mem_toFinset]
      exact hxq
  obtain ⟨l, hl, hiff, hnodup, hget, htopo⟩ :=
    buildUpdateList_invariant hnd hnc repo.length
      ((get_children repo R).map (fun d => (d, R))) []
      ((repo.map Prod.fst).toFinset \ (get_children repo R).toFinset)
      hfuel hQch hQpar hNd hAch hTopo0 hDQ hDA hCov hAv
  refine ⟨l, ?_, hiff, hnodup, ?_, hget, ?_⟩
  · unfold traverseDescendants
    have hstep : buildUpdateList repo (repo.length + 1) [(R, none)] [] =
        buildUpdateList repo repo.length
          ((get_children repo R).map (fun d => (d, some R))) [] := by
      simp only [buildUpdateList, List.nil_append]
    rw [hstep]
    have harg : ((get_children repo R).map (fun d => (d, R))).map
        (fun e => (e.1, some e.2)) =
        (get_children repo R).map (fun d => (d, some R)) := by
      simp [List.map_map, Function.comp_def]
    rw [← harg]
    exact hl
  · intro p hp
    exact hnc R ((hiff R).mp ⟨p, hp⟩)
  · intro i
    have h := htopo.take_mem i
    simpa using h

theorem chainRepo_noCycle : NoCycle chainRepo := by
  apply noCycle_of_rank chainRepo chainRank
  intro c p h
  have hm := dictGet_mem h
  simp only [chainRepo, List.mem_cons, Prod.mk.injEq, List.not_mem_nil,
    or_false] at hm
  rcases hm with ⟨rfl, rfl⟩ | ⟨rfl, rfl⟩ | ⟨rfl, rfl⟩ <;> decide

theorem traversal_topological_witness :
    ∃ l, traverseDescendants chainRepo "main" = some l ∧
      (∀ x, (∃ p, (x, p) ∈ l) ↔ Desc chainRepo "main" x) ∧
      (l.map Prod.fst).Nodup ∧
      (∀ p, ("main", p) ∉ l) ∧
      (∀ e ∈ l, dictGet chainRepo e.1 = some e.2) ∧
      (∀ i : Fin l.length, (l.get i).2 = "main" ∨
          (l.get i).2 ∈ (l.take i.val).map Prod.fst) :=
  traversal_topological chainRepo "main" (by decide) chainRepo_noCycle

/-! ## Claim theorems for the stack store -/

/-- Claim C3: `remove_from_stack` returns `false` and changes nothing
when the branch is not recorded for the current repository; when it is
recorded with parent `g`, the call returns `true`, afterwards every
other branch whose recorded parent was the removed branch now records
`g` (all other parents unchanged), and the removed branch is gone from
the repository's mapping. -/
theorem remove_from_stack_semantics (file : StackFile) (repoId p : String)
    (hwf : file.WF) :
    (recordedParent file repoId p = none →
        remove_from_stack file repoId p = (file, false)) ∧
    (∀ g, recordedParent file repoId p = some g →
        (remove_from_stack file repoId p).2 = true ∧
        recordedParent (remove_from_stack file repoId p).1 repoId p = none ∧
        (∀ c pc, c ≠ p → recordedParent file repoId c = some pc →
            recordedParent (remove_from_stack file repoId p).1 repoId c =
              some (if pc = p then g else pc))) := by
  constructor
  · intro h
    cases file with
    | missing => simp [remove_from_stack]
    | corrupt => simp [remove_from_stack]
    | parsed sm =>
        by_cases hr : repoId = ""
        · simp [remove_from_stack, hr]
        · simp only [recordedParent, if_neg hr] at h
          cases hrep : dictGet sm repoId with
          | none => simp [remove_from_stack, hr, hrep]
          | some repo =>
              rw [hrep] at h
              simp only [Option.some_bind] at h
              simp [remove_from_stack, hr, hrep, h]
  · intro g hg
    cases file with
    | missing => simp [recordedParent] at hg
    | corrupt => simp [recordedParent] at hg
    | parsed sm =>
        by_cases hr : repoId = ""
        · simp [recordedParent, hr] at hg
        · simp only [recordedParent, if_neg hr] at hg
          cases hrep : dictGet sm repoId with
          | none => rw [hrep] at hg; simp at hg
          | some repo =>
              rw [hrep] at hg
              simp only [Option.some_bind] at hg
              obtain ⟨hnd1, hnd2⟩ := hwf
              have hndrepo : (repo.map Prod.fst).Nodup :=
                hnd2 (repoId, repo) (dictGet_mem hrep)
              have hrun : remove_from_stack (.parsed sm) repoId p =
                  (.parsed (dictSet sm repoId
                    (dictDelete
                      (repo.map fun e => if e.2 = p then (e.1, g) else e) p)),
                   true) := by
                simp [remove_from_stack, hr, hrep, hg]
              refine ⟨by rw [hrun], ?_, ?_⟩
              · rw [hrun]
                simp only [recordedParent, if_neg hr, dictGet_dictSet_self,
                  Option.some_bind]
                apply dictGet_dictDelete_self
                rw [relink_keys]
                exact hndrepo
              · intro c pc hcp hrc
                rw [hrun]
                simp only [recordedParent, if_neg hr, dictGet_dictSet_self,
                  Option.some_bind]
                rw [dictGet_dictDelete_ne _ hcp, dictGet_relink]
                simp only [recordedParent, if_neg hr, hrep,
                  Option.some_bind] at hrc
                rw [hrc]
                rfl

theorem remove_from_stack_semantics_witness :
    (recordedParent (.parsed smC3) "r" "p" = none →
        remove_from_stack (.parsed smC3) "r" "p" = (.parsed smC3, false)) ∧
    (∀ g, recordedParent (.parsed smC3) "r" "p" = some g →
        (remove_from_stack (.parsed smC3) "r" "p").2 = true ∧
        recordedParent (remove_from_stack (.parsed smC3) "r" "p").1 "r" "p" =
          none ∧
        (∀ c pc, c ≠ "p" → recordedParent (.parsed smC3) "r" c = some pc →
            recordedParent (remove_from_stack (.parsed smC3) "r" "p").1 "r" c =
              some (if pc = "p" then g else pc))) :=
  remove_from_stack_semantics (.parsed smC3) "r" "p"
    (show (smC3.map Prod.fst).Nodup ∧ ∀ e ∈ smC3, (e.2.map Prod.fst).Nodup by
      decide)

/-- Claim C9: both `add_to_stack` and `remove_from_stack` rewrite only
the current repository's entry of a parseable store; every other
repository identity keeps exactly its previous mapping. -/
theorem cross_repo_frame (sm : StacksMap) (repoId b par p r : String)
    (h : r ≠ repoId) :
    ((add_to_stack (.parsed sm) repoId b par).bind (fun f => repoOf f r) =
        dictGet sm r) ∧
    repoOf (remove_from_stack (.parsed sm) repoId p).1 r = dictGet sm r := by
  constructor
  · by_cases hr : repoId = ""
    · simp [add_to_stack, hr, repoOf]
    · simp only [add_to_stack, if_neg hr, Option.some_bind, repoOf]
      exact dictGet_dictSet_ne _ _ h
  · by_cases hr : repoId = ""
    · simp [remove_from_stack, hr, repoOf]
    · simp only [remove_from_stack, if_neg hr]
      cases hrep : dictGet sm repoId with
      | none => simp [repoOf]
      | some repo =>
          cases hp : dictGet repo p with
          | none => simp [hp, repoOf]
          | some parent =>
              simp only [hp, repoOf]
              exact dictGet_dictSet_ne _ _ h

theorem cross_repo_frame_witness :
    ((add_to_stack (.parsed smC9) "r" "b" "x").bind (fun f => repoOf f "s") =
        dictGet smC9 "s") ∧
    repoOf (remove_from_stack (.parsed smC9) "r" "x").1 "s" = dictGet smC9 "s" :=
  cross_repo_frame smC9 "r" "b" "x" "x" "s" (by decide)

/-- Claim C4 counterexample: `a` is already an ancestor of `b`, yet
`add_to_stack "a" "b"` is not rejected — it performs the parent-pointer
write, producing a cyclic stack, instead of leaving the store
unchanged. -/
theorem add_to_stack_cycle_counterexample :
    Desc cycleRepo "a" "b" ∧
    add_to_stack (.parsed cycleSm) "repo" "a" "b" =
      some (.parsed [("repo", [("a", "b"), ("b", "a")])]) ∧
    recordedParent (.parsed [("repo", [("a", "b"), ("b", "a")])]) "repo" "a" =
      some "b" ∧
    add_to_stack (.parsed cycleSm) "repo" "a" "b" ≠ some (.parsed cycleSm) :=
  ⟨Desc.single (by decide), by decide, by decide, by decide⟩

/-- Claim C4 amended: `add_to_stack` performs no cycle check at all.
Whenever the repository identity resolves, it unconditionally records
`parent` as the parent of `name` — including when `name` is already an
ancestor of `parent`, in which case the resulting stack is cyclic. -/
theorem add_to_stack_unconditional_write (sm : StacksMap)
    (repoId name parent : String) (h : repoId ≠ "") :
    ∃ sm', add_to_stack (.parsed sm) repoId name parent =
        some (.parsed sm') ∧
      recordedParent (.parsed sm') repoId name = some parent := by
  refine ⟨dictSet sm repoId
    (dictSet ((dictGet sm repoId).getD []) name parent), ?_, ?_⟩
  · simp [add_to_stack, h]
  · simp [recordedParent, if_neg h, dictGet_dictSet_self]

theorem add_to_stack_unconditional_write_witness :
    ∃ sm', add_to_stack (.parsed cycleSm) "repo" "a" "b" =
        some (.parsed sm') ∧
      recordedParent (.parsed sm') "repo" "a" = some "b" :=
  add_to_stack_unconditional_write cycleSm "repo" "a" "b" (by decide)

/-- Claim C8: on a stack file that exists but does not parse, both
`get_parent_branch` and `get_child_branches` print the warning and
return the empty string / empty list; the embedding is total, so no
exception escapes — the store degrades to an empty stack. -/
theorem corrupt_store_degrades (repoId branch : String) :
    get_parent_branch .corrupt repoId branch =
      ("", ["Error reading stack file"]) ∧
    get_child_branches .corrupt repoId branch =
      ([], ["Error reading stack file"]) :=
  ⟨rfl, rfl⟩

/-! ## Claim theorems for the update propagator -/

/-- Claim C1: on the tracked chain `main <- a <- b <- c`, propagating
from `main` with an operation that succeeds on `a` and conflicts on `b`
yields `updated = [a]`, `conflicted = [b, c]`, and the recorded call
trace shows the per-branch operation was invoked exactly on `a` and `b`
— never on `c`, which is appended to the conflict list because its
parent is already there. -/
theorem cascading_skip_chain (op : String → String → Bool → Bool)
    (ha : op "a" "main" updateAbortOnConflict = true)
    (hb : op "b" "a" updateAbortOnConflict = false) :
    update_branch_and_children chainRepo op "main" =
      some ⟨["a"], ["b", "c"], [("a", "main"), ("b", "a")]⟩ := by
  have ht : traverseDescendants chainRepo "main" =
      some [("a", "main"), ("b", "a"), ("c", "b")] := by decide
  simp only [update_branch_and_children, ht, Option.map_some']
  simp [processUpdates, ha, hb]

theorem cascading_skip_chain_witness :
    update_branch_and_children chainRepo (fun c _ _ => c == "a") "main" =
      some ⟨["a"], ["b", "c"], [("a", "main"), ("b", "a")]⟩ :=
  cascading_skip_chain (fun c _ _ => c == "a") (by decide) (by decide)

/-- Claim C5 counterexample: the plain update command's call site does
not use the halting policy — its literal `abort_on_conflict` argument is
`True`, not `False`. -/
theorem update_policy_counterexample :
    ¬ (updateAbortOnConflict = false ∧ syncAbortOnConflict = true) := by
  decide

/-- Claim C5 amended: both call sites select the same abort-and-continue
policy: `update.py` line 111 and `sync.py` line 137 each pass
`abort_on_conflict=True`, and the two propagation functions are the same
algorithm under that shared flag. -/
theorem both_call_sites_abort_and_continue :
    updateAbortOnConflict = true ∧ syncAbortOnConflict = true ∧
    update_branch_and_children = update_branches_with_conflict_handling :=
  ⟨rfl, rfl, rfl⟩

theorem parentOf_get {repo : RepoStack} {b : String}
    (h : parentOf repo b ≠ "") : dictGet repo b = some (parentOf repo b) := by
  unfold parentOf at h ⊢
  cases hg : dictGet repo b with
  | none => simp [hg] at h
  | some v => simp [hg]

theorem not_stop_parent_ne {repo : RepoStack} {hasPR : String → Bool}
    {b : String} (h : ¬ StopCond repo hasPR b) : parentOf repo b ≠ "" := by
  intro hh
  exact h (Or.inl hh)

theorem findOldestAux_mono {repo : RepoStack} {hasPR : String → Bool} :
    ∀ (fuel : Nat) (b : String) (fuel' : Nat) (r : String),
      findOldestAux repo hasPR fuel b = some r → fuel ≤ fuel' →
      findOldestAux repo hasPR fuel' b = some r := by
  intro fuel
  induction fuel with
  | zero =>
      intro b fuel' r h _
      exact absurd h (by simp [findOldestAux])
  | succ f ih =>
      intro b fuel' r h hle
      obtain ⟨f', rfl⟩ : ∃ f', fuel' = f' + 1 := ⟨fuel' - 1, by omega⟩
      by_cases h1 : parentOf repo b = "" ∨ parentOf repo b = "main" ∨
          parentOf repo b = "master"
      · simp only [findOldestAux, if_pos h1] at h ⊢
        exact h
      · by_cases h2 : hasPR (parentOf repo b)
        · simp only [findOldestAux, if_neg h1, if_pos h2] at h ⊢
          exact h
        · simp only [findOldestAux, if_neg h1, if_neg h2] at h ⊢
          exact ih _ _ _ h (by omega)

theorem findOldestAux_reach {repo : RepoStack} {hasPR : String → Bool} :
    ∀ (fuel : Nat) (b r : String),
      findOldestAux repo hasPR fuel b = some r →
      ReachUp repo hasPR b r ∧ StopCond repo hasPR r := by
  intro fuel
  induction fuel with
  | zero =>
      intro b r h
      exact absurd h (by simp [findOldestAux])
  | succ f ih =>
      intro b r h
      by_cases h1 : parentOf repo b = "" ∨ parentOf repo b = "main" ∨
          parentOf repo b = "master"
      · simp only [findOldestAux, if_pos h1, Option.some.injEq] at h
        subst h
        refine ⟨ReachUp.refl b, ?_⟩
        rcases h1 with h1 | h1 | h1
        · exact Or.inl h1
        · exact Or.inr (Or.inl h1)
        · exact Or.inr (Or.inr (Or.inl h1))
      · by_cases h2 : hasPR (parentOf repo b)
        · simp only [findOldestAux, if_neg h1, if_pos h2,
            Option.some.injEq] at h
          subst h
          exact ⟨ReachUp.refl b, Or.inr (Or.inr (Or.inr h2))⟩
        · simp only [findOldestAux, if_neg h1, if_neg h2] at h
          have hns : ¬ StopCond repo hasPR b := by
            intro hs
            rcases hs with hs | hs | hs | hs
            · exact h1 (Or.inl hs)
            · exact h1 (Or.inr (Or.inl hs))
            · exact h1 (Or.inr (Or.inr hs))
            · exact h2 hs
          obtain ⟨hr1, hr2⟩ := ih _ _ h
          exact ⟨ReachUp.step hns hr1, hr2⟩

theorem reachUp_desc {repo : RepoStack} {hasPR : String → Bool} {b x : String}
    (h : ReachUp repo hasPR b x) : x = b ∨ Desc repo x b := by
  induction h with
  | refl b => exact Or.inl rfl
  | step hns hr ih =>
      rename_i b' x'
      have hlink : dictGet repo b' = some (parentOf repo b') :=
        parentOf_get (not_stop_parent_ne hns)
      rcases ih with rfl | hdesc
      · exact Or.inr (Desc.single hlink)
      · exact Or.inr (hdesc.trans (Desc.single hlink))

/-- Branches reached strictly above a non-stopping branch `b` are never
`b` itself: the upward walk cannot return to its origin on an acyclic
stack. -/
theorem reach_ne_of_parent {repo : RepoStack} {hasPR : String → Bool}
    (hnc : NoCycle repo) {b : String} (hns : ¬ StopCond repo hasPR b) :
    ∀ x, ReachUp repo hasPR (parentOf repo b) x → x ≠ b := by
  intro x hr hxb
  subst hxb
  have hlink : dictGet repo x = some (parentOf repo x) :=
    parentOf_get (not_stop_parent_ne hns)
  rcases reachUp_desc hr with heq | hdesc
  · rw [← heq] at hlink
    exact hnc x (Desc.single hlink)
  · exact hnc x (hdesc.trans (Desc.single hlink))

theorem findOldestAux_terminates {repo : RepoStack} {hasPR : String → Bool}
    (hnc : NoCycle repo) :
    ∀ (fuel : Nat) (b : String) (avail : Finset String), avail.card < fuel →
      (∀ x, ReachUp repo hasPR b x → ¬ StopCond repo hasPR x → x ∈ avail) →
      ∃ r, findOldestAux repo hasPR fuel b = some r := by
  intro fuel
  induction fuel with
  | zero =>
      intro b avail hcard _
      omega
  | succ f ih =>
      intro b avail hcard hA
      by_cases h1 : parentOf repo b = "" ∨ parentOf repo b = "main" ∨
          parentOf repo b = "master"
      · exact ⟨b, by simp only [findOldestAux, if_pos h1]⟩
      · by_cases h2 : hasPR (parentOf repo b)
        · exact ⟨b, by simp only [findOldestAux, if_neg h1, if_pos h2]⟩
        · have hns : ¬ StopCond repo hasPR b := by
            intro hs
            rcases hs with hs | hs | hs | hs
            · exact h1 (Or.inl hs)
            · exact h1 (Or.inr (Or.inl hs))
            · exact h1 (Or.inr (Or.inr hs))
            · exact h2 hs
          have hb_in : b ∈ avail := hA b (ReachUp.refl b) hns
          have hA2 : ∀ x, ReachUp repo hasPR (parentOf repo b) x →
              ¬ StopCond repo hasPR x → x ∈ avail.erase b := by
            intro x hr hxs
            exact Finset.mem_erase.mpr
              ⟨reach_ne_of_parent hnc hns x hr,
               hA x (ReachUp.step hns hr) hxs⟩
          have hcard2 : (avail.erase b).card < f := by
            have he := Finset.card_erase_of_mem hb_in
            have hpos : 0 < avail.card := Finset.card_pos.mpr ⟨b, hb_in⟩
            omega
          obtain ⟨r, hr⟩ := ih (parentOf repo b) (avail.erase b) hcard2 hA2
          exact ⟨r, by simp only [findOldestAux, if_neg h1, if_neg h2]; exact hr⟩

/-- Claim C7: on any acyclic stack, `find_oldest_branch_without_pr`
terminates; it returns the branch itself exactly when the branch's
recorded parent is empty, the trunk, or already has a pull request;
otherwise it equals the recursive call on the parent; and any returned
branch is an element of the upward chain whose own parent satisfies the
stopping condition. -/
theorem find_oldest_stopping_rule (repo : RepoStack) (hasPR : String → Bool)
    (b : String) (hnc : NoCycle repo) :
    (∃ r, find_oldest_branch_without_pr repo hasPR b = some r) ∧
    (StopCond repo hasPR b ↔
        find_oldest_branch_without_pr repo hasPR b = some b) ∧
    (¬ StopCond repo hasPR b →
        find_oldest_branch_without_pr repo hasPR b =
          find_oldest_branch_without_pr repo hasPR (parentOf repo b)) ∧
    (∀ r, find_oldest_branch_without_pr repo hasPR b = some r →
        StopCond repo hasPR r ∧ ReachUp repo hasPR b r) := by
  have hAkeys : ∀ (c : String) x, ReachUp repo hasPR c x →
      ¬ StopCond repo hasPR x → x ∈ (repo.map Prod.fst).toFinset := by
    intro c x _ hxs
    rw [List.mem_toFinset]
    exact dictGet_mem_keys (parentOf_get (not_stop_parent_ne hxs))
  have hcard : ((repo.map Prod.fst).toFinset).card < repo.length + 1 := by
    have := List.toFinset_card_le (repo.map Prod.fst)
    simp only [List.length_map] at this
    omega
  have hterm : ∃ r, find_oldest_branch_without_pr repo hasPR b = some r :=
    findOldestAux_terminates hnc (repo.length + 1) b _ hcard (hAkeys b)
  refine ⟨hterm, ?_, ?_, ?_⟩
  · constructor
    · intro hs
      unfold find_oldest_branch_without_pr
      by_cases h1 : parentOf repo b = "" ∨ parentOf repo b = "main" ∨
          parentOf repo b = "master"
      · simp only [findOldestAux, if_pos h1]
      · have h2 : hasPR (parentOf repo b) = true := by
          rcases hs with hs | hs | hs | hs
          · exact absurd (Or.inl hs) h1
          · exact absurd (Or.inr (Or.inl hs)) h1
          · exact absurd (Or.inr (Or.inr hs)) h1
          · exact hs
        simp only [findOldestAux, if_neg h1, if_pos h2]
    · intro heq
      exact (findOldestAux_reach _ _ _ heq).2
  · intro hns
    have h1 : ¬ (parentOf repo b = "" ∨ parentOf repo b = "main" ∨
        parentOf repo b = "master") := by
      intro hh
      rcases hh with hh | hh | hh
      · exact hns (Or.inl hh)
      · exact hns (Or.inr (Or.inl hh))
      · exact hns (Or.inr (Or.inr (Or.inl hh)))
    have h2 : ¬ hasPR (parentOf repo b) = true := by
      intro hh
      exact hns (Or.inr (Or.inr (Or.inr hh)))
    have hstep : find_oldest_branch_without_pr repo hasPR b =
        findOldestAux repo hasPR repo.length (parentOf repo b) := by
      unfold find_oldest_branch_without_pr
      simp only [findOldestAux, if_neg h1, if_neg h2]
    have hbkeys : b ∈ (repo.map Prod.fst).toFinset := by
      rw [List.mem_toFinset]
      exact dictGet_mem_keys (parentOf_get (not_stop_parent_ne hns))
    have hcard2 : (((repo.map Prod.fst).toFinset).erase b).card <
        repo.length := by
      have he := Finset.card_erase_of_mem hbkeys
      have hpos : 0 < ((repo.map Prod.fst).toFinset).card :=
        Finset.card_pos.mpr ⟨b, hbkeys⟩
      have hle := List.toFinset_card_le (repo.map Prod.fst)
      simp only [List.length_map] at hle
      omega
    have hA2 : ∀ x, ReachUp repo hasPR (parentOf repo b) x →
        ¬ StopCond repo hasPR x →
        x ∈ ((repo.map Prod.fst).toFinset).erase b := by
      intro x hr hxs
      exact Finset.mem_erase.mpr
        ⟨reach_ne_of_parent hnc hns x hr, hAkeys (parentOf repo b) x hr hxs⟩
    obtain ⟨r, hr⟩ := findOldestAux_terminates hnc repo.length
      (parentOf repo b) _ hcard2 hA2
    rw [hstep, hr]
    unfold find_oldest_branch_without_pr
    rw [findOldestAux_mono repo.length (parentOf repo b) (repo.length + 1) r hr
      (by omega)]
  · intro r heq
    obtain ⟨h1, h2⟩ := findOldestAux_reach _ _ _ heq
    exact ⟨h2, h1⟩

/-- Claim C6: on `main <- base <- feature` with `base` lacking a PR,
unpushed, and the user declining the push, `create_pr_for_branch`
returns `False` for `base` with an empty trace (no push, no `gh pr
create`), and PR orchestration from `base` towards `feature` produces
only the status print for `base`: zero PR-creation calls, no push, and
no visit of `feature`. -/
theorem pr_skip_on_declined_push (env : PrEnv) (fuel : Nat)
    (hpr : env.hasPR "base" = false)
    (hpush : env.pushedToRemote "base" = false)
    (hconf : env.confirmPush "base" = false) :
    create_pr_for_branch env "base" "main" = (false, []) ∧
    process_branch_for_pr env prRepo (fuel + 1) "base" "feature" =
      some [PrEvent.procStart "base"] := by
  have hc : create_pr_for_branch env "base" "main" = (false, []) := by
    simp [create_pr_for_branch, ensure_branch_pushed, hpush, hconf]
  refine ⟨hc, ?_⟩
  have hpar : parentOf prRepo "base" = "main" := by decide
  simp [process_branch_for_pr, hpr, hpar, hc]

theorem pr_skip_on_declined_push_witness :
    create_pr_for_branch prEnvDecline "base" "main" = (false, []) ∧
    process_branch_for_pr prEnvDecline prRepo 1 "base" "feature" =
      some [PrEvent.procStart "base"] :=
  pr_skip_on_declined_push prEnvDecline 0 rfl rfl rfl

/-- Claim C10: deleting the currently checked-out branch exits with an
error immediately: no confirmation prompt is shown, no git command runs,
and the stack file is returned untouched (the guard fires before any
mutation; if the existence check fails first the command also exits
before doing anything). -/
theorem delete_current_branch_guard (env : DelEnv) (file : StackFile)
    (b : String) (h : b = env.currentBranch) :
    delete_branch env file b = some (.exited, file, []) := by
  by_cases he : env.branchExists b = false
  · simp [delete_branch, he]
  · simp [delete_branch, he, h]

theorem delete_current_branch_guard_witness :
    delete_branch delEnvC10 (.parsed smC3) "feature" =
      some (.exited, .parsed smC3, []) :=
  delete_current_branch_guard delEnvC10 (.parsed smC3) "feature" rfl

theorem find_oldest_stopping_rule_witness :
    (∃ r, find_oldest_branch_without_pr chainRepo (fun _ => false) "c"
        = some r) ∧
    (StopCond chainRepo (fun _ => false) "c" ↔
        find_oldest_branch_without_pr chainRepo (fun _ => false) "c"
          = some "c") ∧
    (¬ StopCond chainRepo (fun _ => false) "c" →
        find_oldest_branch_without_pr chainRepo (fun _ => false) "c" =
          find_oldest_branch_without_pr chainRepo (fun _ => false)
            (parentOf chainRepo "c")) ∧
    (∀ r, find_oldest_branch_without_pr chainRepo (fun _ => false) "c"
        = some r →
        StopCond chainRepo (fun _ => false) r ∧
        ReachUp chainRepo (fun _ => false) "c" r) :=
  find_oldest_stopping_rule chainRepo (fun _ => false) "c" chainRepo_noCycle

end Panqake
